import Mathlib

/-!
Verification of the diarization post-processing core of
`hub-model-server/hub_model_code/diarization_utils.py`.

The embedding models timestamps as rationals (`ℚ`).  Python dict records
become structures; the dict key `end` is rendered as the field `stop`
(`end` is a reserved word in Lean).  Fallible code paths (Python
exceptions / crashes) are modelled with `Except`:
  * `diarize_audio` on an empty segment list crashes at `segments[0]`;
    this failure is the `MergeError.InvalidInputError` result.
  * `np.argmin` on an empty array raises `ValueError`; this failure is
    the `AlignError.EmptyTranscriptError` result.
`sys.float_info.max`, the sentinel substituted for a `None` chunk end,
is the exact rational value of the largest IEEE-754 double.
-/

namespace DiarizationUtils

/-- One raw diarization emission, the dict
`{"segment": {"start": .., "end": ..}, "track": .., "label": ..}`
built in `diarize_audio` (lines 44-52 of `diarization_utils.py`). -/
structure RawSegment where
  start : ℚ
  stop : ℚ
  track : String
  label : String
  deriving DecidableEq

/-- A merged speaker turn, the dict
`{"segment": {"start": .., "end": ..}, "speaker": ..}` produced by the
merging loop of `diarize_audio` (lines 56-85). -/
structure SpeakerTurn where
  start : ℚ
  stop : ℚ
  speaker : String
  deriving DecidableEq

/-- One ASR transcript chunk `{"text": .., "timestamp": (start, end)}`;
the end of the timestamp pair may be `None` (open-ended final chunk). -/
structure TranscriptChunk where
  text : String
  tstart : ℚ
  tend : Option ℚ
  deriving DecidableEq

/-- One element of `segmented_preds` in
`post_process_segments_and_transcripts`: the speaker label together with
the text/timestamp fields (both output modes produce this shape). -/
structure AlignedPred where
  speaker : String
  text : String
  tstart : ℚ
  tend : Option ℚ
  deriving DecidableEq

/-- Failure mode of the merging stage: `segments[0]` on an empty list
crashes (the spec's declared precondition `InvalidInputError`). -/
inductive MergeError where
  | InvalidInputError
  deriving DecidableEq

/-- Failure mode of the alignment stage: `np.argmin` over an empty
`end_timestamps` array raises (the spec's `EmptyTranscriptError`). -/
inductive AlignError where
  | EmptyTranscriptError
  deriving DecidableEq

/-- The merging scan of `diarize_audio` (lines 59-85).  `prev` is
`prev_segment` (first segment of the current same-speaker run), `cur` is
`cur_segment` (the segment inspected most recently); the remaining list
is the part of `segments[1:]` not yet scanned.  The final flush (lines
76-85) uses `prev.start` and `cur.stop`. -/
def mergeAux (prev cur : RawSegment) : List RawSegment → List SpeakerTurn
  | [] => [{ start := prev.start, stop := cur.stop, speaker := prev.label }]
  | c :: rest =>
    if c.label ≠ prev.label then
      { start := prev.start, stop := c.start, speaker := prev.label } :: mergeAux c c rest
    else
      mergeAux prev c rest

/-- The merging part of `diarize_audio` (lines 54-87): collapse
consecutive same-label raw segments into speaker turns.  The pipeline
invocation that produces `segments` (lines 37-52) is external model
inference and is not part of this core. -/
def diarize_audio_merge : List RawSegment → Except MergeError (List SpeakerTurn)
  | [] => Except.error MergeError.InvalidInputError
  | s :: rest => Except.ok (mergeAux s s rest)

/-- Exact rational value of `sys.float_info.max`
(the largest finite IEEE-754 double, `(2^53 - 1) * 2^971`). -/
def floatMax : ℚ := ((2 : ℚ) ^ 53 - 1) * 2 ^ 971

/-- Effective end time of a chunk (line 92-93):
`chunk["timestamp"][-1]` when present, else `sys.float_info.max`. -/
def effectiveEnd (c : TranscriptChunk) : ℚ :=
  match c.tend with
  | some e => e
  | none => floatMax

/-- First index of the minimum of a list, as computed by `np.argmin`
(first occurrence wins on ties).  The value on `[]` is irrelevant: the
caller models the `ValueError` of `np.argmin([])` separately. -/
def argminList : List ℚ → ℕ
  | [] => 0
  | [_] => 0
  | x :: y :: rest =>
    if (y :: rest).getD (argminList (y :: rest)) 0 < x then argminList (y :: rest) + 1 else 0

/-- The call `np.argmin(np.abs(end_timestamps - end_time))` (line 101). -/
def argminAbsList (l : List ℚ) (t : ℚ) : ℕ :=
  argminList (l.map fun e => |e - t|)

/-- Placeholder chunk for the total renderings of `transcript[0]` /
`transcript[upto_idx]`; at every call site the indices are in range
(the working transcript and `end_timestamps` always have equal length
and are non-empty there), so the default is never selected. -/
def defaultChunk : TranscriptChunk :=
  { text := "", tstart := 0, tend := none }

/-- The grouped-mode record appended at lines 104-114: speaker label,
concatenated texts of `transcript[: upto_idx + 1]`, and the timestamp
pair `(transcript[0]["timestamp"][0], transcript[upto_idx]["timestamp"][1])`
taken from the current (already cropped) working transcript. -/
def groupedPred (seg : SpeakerTurn) (transcript : List TranscriptChunk) (upto : ℕ) : AlignedPred :=
  { speaker := seg.speaker,
    text := String.join ((transcript.take (upto + 1)).map TranscriptChunk.text),
    tstart := (transcript.headD defaultChunk).tstart,
    tend := (transcript.getD upto defaultChunk).tend }

/-- The per-chunk records appended at lines 119-120: each attributed
chunk's fields prefixed with the turn's speaker label. -/
def attributed (speaker : String) (cs : List TranscriptChunk) : List AlignedPred :=
  cs.map fun c => { speaker := speaker, text := c.text, tstart := c.tstart, tend := c.tend }

/-- What one loop iteration appends to `segmented_preds` (lines 103-120),
for the given mode, working transcript and cut index. -/
def alignEmitted (g : Bool) (seg : SpeakerTurn) (transcript : List TranscriptChunk)
    (upto : ℕ) : List AlignedPred :=
  if g then [groupedPred seg transcript upto]
  else attributed seg.speaker (transcript.take (upto + 1))

/-- The alignment loop of `post_process_segments_and_transcripts`
(lines 97-125): walk the turns; per turn find the argmin cut index over
the current `end_timestamps`, emit, crop both working lists, and `break`
when `end_timestamps` becomes empty.  Reaching the loop body with an
empty `end_timestamps` (only possible on the first iteration) is the
`np.argmin` crash, modelled as `EmptyTranscriptError`. -/
def alignLoop (g : Bool) :
    List SpeakerTurn → List TranscriptChunk → List ℚ → Except AlignError (List AlignedPred)
  | [], _, _ => Except.ok []
  | _ :: _, _, [] => Except.error AlignError.EmptyTranscriptError
  | seg :: rest, transcript, e :: ets =>
    let upto := argminAbsList (e :: ets) seg.stop
    let emitted := alignEmitted g seg transcript upto
    let transcript2 := transcript.drop (upto + 1)
    let ets2 := (e :: ets).drop (upto + 1)
    if ets2.isEmpty then Except.ok emitted
    else
      match alignLoop g rest transcript2 ets2 with
      | Except.ok out => Except.ok (emitted ++ out)
      | Except.error err => Except.error err

/-- The function `post_process_segments_and_transcripts` (lines 90-127): build the
`end_timestamps` array from the transcript (line 92-93) and run the
alignment loop. -/
def post_process_segments_and_transcripts (new_segments : List SpeakerTurn)
    (transcript : List TranscriptChunk) (group_by_speaker : Bool) :
    Except AlignError (List AlignedPred) :=
  alignLoop group_by_speaker new_segments transcript (transcript.map effectiveEnd)

/-- Index `k` is the position of the chunk end closest to `t`, with the
lowest index winning ties: valid index, weakly minimal distance over the
whole list, and strictly smaller distance than every earlier index. -/
def isClosestIdx (l : List ℚ) (t : ℚ) (k : ℕ) : Prop :=
  k < l.length ∧
  (∀ j, j < l.length → |l.getD k 0 - t| ≤ |l.getD j 0 - t|) ∧
  (∀ j, j < k → |l.getD k 0 - t| < |l.getD j 0 - t|)

/-- Number of positions at which consecutive raw segments carry
different speaker labels. -/
def countLabelChanges : List RawSegment → ℕ
  | [] => 0
  | [_] => 0
  | a :: b :: rest => (if a.label ≠ b.label then 1 else 0) + countLabelChanges (b :: rest)

/-- The record a per-chunk output entry carries over from its source
chunk (everything but the added speaker label). -/
def predChunk (p : AlignedPred) : TranscriptChunk :=
  { text := p.text, tstart := p.tstart, tend := p.tend }

/-- Whether the alignment loop's working set becomes empty while
processing the given turns (i.e. the `break` at lines 124-125 fires).
The working transcript and the working `end_timestamps` are cropped in
lockstep and have equal length throughout, so the loop is tracked here
on the transcript alone. -/
def exhaustsTranscript : List SpeakerTurn → List TranscriptChunk → Bool
  | [], _ => false
  | _ :: _, [] => false
  | seg :: rest, c :: cs =>
    let t2 := (c :: cs).drop (argminAbsList ((c :: cs).map effectiveEnd) seg.stop + 1)
    if t2.isEmpty then true else exhaustsTranscript rest t2

/-- Reading `getD` through a `map`, at an in-range index. -/
theorem getD_map_eq (l : List ℚ) (f : ℚ → ℚ) (j : ℕ) (hj : j < l.length) (d d' : ℚ) :
    (l.map f).getD j d' = f (l.getD j d) := by
  rw [List.getD_eq_getElem?_getD, List.getD_eq_getElem?_getD, List.getElem?_map,
    List.getElem?_eq_getElem hj]
  rfl

/-- Unfolding of `argminList` on a list of two or more elements. -/
theorem argminList_cons_cons (x y : ℚ) (rest : List ℚ) :
    argminList (x :: y :: rest) =
      if (y :: rest).getD (argminList (y :: rest)) 0 < x
      then argminList (y :: rest) + 1 else 0 := by
  simp only [argminList]

/-- The index `argminList` returns is in range on non-empty input. -/
theorem argminList_lt_length : ∀ (l : List ℚ), l ≠ [] → argminList l < l.length
  | [], h => absurd rfl h
  | [_], _ => by simp [argminList]
  | x :: y :: rest, _ => by
    have ih := argminList_lt_length (y :: rest) (by simp)
    rw [argminList_cons_cons]
    by_cases hc : (y :: rest).getD (argminList (y :: rest)) 0 < x
    · rw [if_pos hc]
      simp only [List.length_cons] at ih ⊢
      omega
    · rw [if_neg hc]
      simp

/-- The value at `argminList l` is a minimum of `l`. -/
theorem argminList_le : ∀ (l : List ℚ) (j : ℕ), j < l.length →
    l.getD (argminList l) 0 ≤ l.getD j 0
  | [_], 0, _ => le_refl _
  | x :: y :: rest, j, hj => by
    rw [argminList_cons_cons]
    by_cases hc : (y :: rest).getD (argminList (y :: rest)) 0 < x
    · rw [if_pos hc]
      cases j with
      | zero => exact le_of_lt hc
      | succ j' =>
        have := argminList_le (y :: rest) j' (by simpa using hj)
        exact this
    · rw [if_neg hc]
      cases j with
      | zero => exact le_refl _
      | succ j' =>
        have hle := argminList_le (y :: rest) j' (by simpa using hj)
        have hx := not_lt.mp hc
        calc (x :: y :: rest).getD 0 0 = x := rfl
          _ ≤ (y :: rest).getD (argminList (y :: rest)) 0 := hx
          _ ≤ (y :: rest).getD j' 0 := hle
          _ = (x :: y :: rest).getD (j' + 1) 0 := rfl

/-- Every index before `argminList l` holds a strictly larger value:
the first occurrence of the minimum wins. -/
theorem argminList_first : ∀ (l : List ℚ) (j : ℕ), j < argminList l →
    l.getD (argminList l) 0 < l.getD j 0
  | [], j, hj => by simp [argminList] at hj
  | [_], j, hj => by simp [argminList] at hj
  | x :: y :: rest, j, hj => by
    rw [argminList_cons_cons] at hj ⊢
    by_cases hc : (y :: rest).getD (argminList (y :: rest)) 0 < x
    · rw [if_pos hc] at hj ⊢
      cases j with
      | zero => exact hc
      | succ j' =>
        have hj' : j' < argminList (y :: rest) := by omega
        exact argminList_first (y :: rest) j' hj'
    · rw [if_neg hc] at hj
      omega

/-- The index computed by `argminAbsList` is the closest index in the
sense of `isClosestIdx`, for any non-empty list. -/
theorem argminAbsList_isClosestIdx (l : List ℚ) (t : ℚ) (hl : l ≠ []) :
    isClosestIdx l t (argminAbsList l t) := by
  have hmapne : l.map (fun e => |e - t|) ≠ [] := by
    simpa [List.map_eq_nil_iff] using hl
  have hlen : (l.map (fun e => |e - t|)).length = l.length := by simp
  have hk0 : argminList (l.map fun e => |e - t|) < l.length := by
    have := argminList_lt_length (l.map (fun e => |e - t|)) hmapne
    rwa [hlen] at this
  have hk : argminAbsList l t < l.length := hk0
  refine ⟨hk, ?_, ?_⟩
  · intro j hj
    have h1 := argminList_le (l.map (fun e => |e - t|)) j (by rwa [hlen])
    rw [getD_map_eq l _ _ hk0 0, getD_map_eq l _ _ hj 0] at h1
    exact h1
  · intro j hjk
    have hjlen : j < l.length := lt_trans hjk hk
    have h1 := argminList_first (l.map (fun e => |e - t|)) j hjk
    rw [getD_map_eq l _ _ hk0 0, getD_map_eq l _ _ hjlen 0] at h1
    exact h1

/-- The scan `mergeAux` never returns the empty list. -/
theorem mergeAux_ne_nil : ∀ (l : List RawSegment) (prev cur : RawSegment),
    mergeAux prev cur l ≠ []
  | [], _, _ => by simp [mergeAux]
  | c :: rest, prev, cur => by
    by_cases hc : c.label ≠ prev.label
    · simp [mergeAux, hc]
    · simpa [mergeAux, hc] using mergeAux_ne_nil rest prev c

/-- The head of `mergeAux prev cur l` starts at `prev.start` and is
labelled `prev.label`. -/
theorem mergeAux_head : ∀ (l : List RawSegment) (prev cur : RawSegment),
    ∃ turn ts, mergeAux prev cur l = turn :: ts ∧
      turn.start = prev.start ∧ turn.speaker = prev.label
  | [], prev, cur => by
    refine ⟨{ start := prev.start, stop := cur.stop, speaker := prev.label }, [], ?_, rfl, rfl⟩
    simp [mergeAux]
  | c :: rest, prev, cur => by
    by_cases hc : c.label ≠ prev.label
    · refine ⟨{ start := prev.start, stop := c.start, speaker := prev.label },
        mergeAux c c rest, ?_, rfl, rfl⟩
      simp [mergeAux, hc]
    · obtain ⟨turn, ts, heq, h1, h2⟩ := mergeAux_head rest prev c
      exact ⟨turn, ts, by simp [mergeAux, hc, heq], h1, h2⟩

/-- The count `countLabelChanges` only inspects the head's label, so heads with
equal labels are interchangeable. -/
theorem countLabelChanges_congr (a b : RawSegment) (rest : List RawSegment)
    (h : a.label = b.label) :
    countLabelChanges (a :: rest) = countLabelChanges (b :: rest) := by
  cases rest with
  | nil => rfl
  | cons c r => simp only [countLabelChanges, h]

/-- The length of the merged output is one plus the number of label
changes in the scanned sequence (seeded with `prev`). -/
theorem mergeAux_length : ∀ (l : List RawSegment) (prev cur : RawSegment),
    (mergeAux prev cur l).length = 1 + countLabelChanges (prev :: l)
  | [], prev, cur => by simp [mergeAux, countLabelChanges]
  | c :: rest, prev, cur => by
    by_cases hc : c.label ≠ prev.label
    · have ih := mergeAux_length rest c c
      have hne : prev.label ≠ c.label := fun h => hc h.symm
      simp only [mergeAux, if_pos hc, List.length_cons, ih, countLabelChanges, if_pos hne]
      omega
    · have heq : c.label = prev.label := not_not.mp hc
      have ih := mergeAux_length rest prev c
      have hne : ¬prev.label ≠ c.label := fun h => h heq.symm
      have hcongr := countLabelChanges_congr prev c rest heq.symm
      simp only [mergeAux, if_neg hc, ih, countLabelChanges, if_neg hne, hcongr]
      omega

/-- The last merged turn's end is the end of the last scanned raw
segment (`cur` when nothing remains to scan). -/
theorem mergeAux_getLast : ∀ (l : List RawSegment) (prev cur : RawSegment),
    ∃ turn, (mergeAux prev cur l).getLast? = some turn ∧
      turn.stop = (l.getLastD cur).stop
  | [], prev, cur => by
    refine ⟨{ start := prev.start, stop := cur.stop, speaker := prev.label }, ?_, rfl⟩
    simp [mergeAux]
  | c :: rest, prev, cur => by
    rw [List.getLastD_cons]
    by_cases hc : c.label ≠ prev.label
    · obtain ⟨turn, hlast, hstop⟩ := mergeAux_getLast rest c c
      refine ⟨turn, ?_, hstop⟩
      obtain ⟨y, ys, hys⟩ := List.exists_cons_of_ne_nil (mergeAux_ne_nil rest c c)
      simp only [mergeAux, if_pos hc, hys, List.getLast?_cons_cons]
      rw [← hys, hlast]
    · obtain ⟨turn, hlast, hstop⟩ := mergeAux_getLast rest prev c
      exact ⟨turn, by simp only [mergeAux, if_neg hc, hlast], hstop⟩

/-- Consecutive merged turns are contiguous (each ends where the next
starts) and carry different speaker labels. -/
theorem mergeAux_chain : ∀ (l : List RawSegment) (prev cur : RawSegment),
    List.Chain' (fun a b : SpeakerTurn => a.stop = b.start ∧ a.speaker ≠ b.speaker)
      (mergeAux prev cur l)
  | [], prev, cur => by simp [mergeAux]
  | c :: rest, prev, cur => by
    by_cases hc : c.label ≠ prev.label
    · obtain ⟨turn, ts, heq, hstart, hspeaker⟩ := mergeAux_head rest c c
      have hch := mergeAux_chain rest c c
      rw [heq] at hch
      simp only [mergeAux, if_pos hc, heq, List.chain'_cons]
      refine ⟨⟨hstart.symm, ?_⟩, hch⟩
      rw [hspeaker]
      exact Ne.symm hc
    · simpa only [mergeAux, if_neg hc] using mergeAux_chain rest prev c

/-- Merging a leading same-label run followed by a segment of a
different label closes the first turn at the start of that segment. -/
theorem mergeAux_run (a b : RawSegment) (rest : List RawSegment) :
    ∀ (run : List RawSegment) (cur : RawSegment),
      (∀ s ∈ run, s.label = a.label) → b.label ≠ a.label →
      mergeAux a cur (run ++ b :: rest) =
        { start := a.start, stop := b.start, speaker := a.label } :: mergeAux b b rest
  | [], cur, _, hb => by simp [mergeAux, hb]
  | c :: run', cur, hrun, hb => by
    have hc : c.label = a.label := hrun c (by simp)
    have hnc : ¬c.label ≠ a.label := fun h => h hc
    have ih := mergeAux_run a b rest run' c (fun s hs => hrun s (by simp [hs])) hb
    rw [List.cons_append]
    simp only [mergeAux, if_neg hnc]
    exact ih

/-- Unfolding of one iteration of the alignment loop on non-empty
turns and non-empty `end_timestamps`, with the trailing `match`
expressed through `Except.map`. -/
theorem alignLoop_cons (g : Bool) (seg : SpeakerTurn) (rest : List SpeakerTurn)
    (transcript : List TranscriptChunk) (e : ℚ) (ets : List ℚ) :
    alignLoop g (seg :: rest) transcript (e :: ets) =
      if ((e :: ets).drop (argminAbsList (e :: ets) seg.stop + 1)).isEmpty then
        Except.ok (alignEmitted g seg transcript (argminAbsList (e :: ets) seg.stop))
      else
        Except.map
          (fun out => alignEmitted g seg transcript (argminAbsList (e :: ets) seg.stop) ++ out)
          (alignLoop g rest (transcript.drop (argminAbsList (e :: ets) seg.stop + 1))
            ((e :: ets).drop (argminAbsList (e :: ets) seg.stop + 1))) := by
  simp only [alignLoop]
  by_cases hi : ((e :: ets).drop (argminAbsList (e :: ets) seg.stop + 1)).isEmpty = true
  · rw [if_pos hi, if_pos hi]
  · rw [if_neg hi, if_neg hi]
    cases h : alignLoop g rest (transcript.drop (argminAbsList (e :: ets) seg.stop + 1))
        ((e :: ets).drop (argminAbsList (e :: ets) seg.stop + 1)) with
    | ok out => simp [Except.map]
    | error err => simp [Except.map]

/-- Unfolding of one turn of `post_process_segments_and_transcripts` on
a non-empty transcript: cut at the argmin index, emit, and continue on
the cropped transcript (stopping when it is exhausted). -/
theorem post_process_cons (g : Bool) (seg : SpeakerTurn) (rest : List SpeakerTurn)
    (t : List TranscriptChunk) (ht : t ≠ []) :
    post_process_segments_and_transcripts (seg :: rest) t g =
      if t.drop (argminAbsList (t.map effectiveEnd) seg.stop + 1) = [] then
        Except.ok (alignEmitted g seg t (argminAbsList (t.map effectiveEnd) seg.stop))
      else
        Except.map
          (fun out => alignEmitted g seg t (argminAbsList (t.map effectiveEnd) seg.stop) ++ out)
          (post_process_segments_and_transcripts rest
            (t.drop (argminAbsList (t.map effectiveEnd) seg.stop + 1)) g) := by
  obtain ⟨c, cs, rfl⟩ := List.exists_cons_of_ne_nil ht
  set k := argminAbsList ((c :: cs).map effectiveEnd) seg.stop with hk
  have hmap : (c :: cs).map effectiveEnd = effectiveEnd c :: cs.map effectiveEnd := rfl
  have hdrop : ((c :: cs).map effectiveEnd).drop (k + 1) =
      ((c :: cs).drop (k + 1)).map effectiveEnd :=
    (List.map_drop effectiveEnd (c :: cs) (k + 1)).symm
  rw [post_process_segments_and_transcripts, hmap, alignLoop_cons, ← hmap, ← hk, hdrop]
  by_cases hd : (c :: cs).drop (k + 1) = []
  · have hie : (((c :: cs).drop (k + 1)).map effectiveEnd).isEmpty = true := by
      rw [hd]
      rfl
    rw [if_pos hie, if_pos hd]
  · have hie : ¬(((c :: cs).drop (k + 1)).map effectiveEnd).isEmpty = true := by
      rw [List.isEmpty_iff, List.map_eq_nil_iff]
      exact hd
    rw [if_neg hie, if_neg hd]
    rfl

/-- Unfolding of `alignEmitted` in per-chunk mode. -/
theorem alignEmitted_false (seg : SpeakerTurn) (t : List TranscriptChunk) (k : ℕ) :
    alignEmitted false seg t k = attributed seg.speaker (t.take (k + 1)) := rfl

/-- Unfolding of `alignEmitted` in grouped mode. -/
theorem alignEmitted_true (seg : SpeakerTurn) (t : List TranscriptChunk) (k : ℕ) :
    alignEmitted true seg t k = [groupedPred seg t k] := rfl

/-- Stripping the speaker label from per-chunk output recovers the
attributed chunks unchanged. -/
theorem attributed_map_predChunk (s : String) : ∀ l : List TranscriptChunk,
    (attributed s l).map predChunk = l
  | [] => rfl
  | c :: cs => by
    have ih := attributed_map_predChunk s cs
    simp only [attributed, List.map_cons] at ih ⊢
    rw [ih]
    rfl

/-- Claim C9: merging fails on an empty raw-segment sequence (the
reference would crash at `segments[0]`; the failure is modelled as the
declared `InvalidInputError`). -/
theorem merge_empty_input_fails :
    diarize_audio_merge [] = Except.error MergeError.InvalidInputError := rfl

/-- Claim C4: on a speaker-label change the merger closes the current
super-segment at the start of the first segment of the next speaker,
not at the end of the current speaker's last segment; in particular
raw segments (0,1,A),(1,1.5,A),(1.5,2,B) merge to exactly the turns
(0,1.5,A),(1.5,2,B). -/
theorem merge_label_change_boundary :
    (∀ (a : RawSegment) (run : List RawSegment) (b : RawSegment) (rest : List RawSegment),
      (∀ s ∈ run, s.label = a.label) → b.label ≠ a.label →
      diarize_audio_merge (a :: (run ++ b :: rest)) =
        Except.ok ({ start := a.start, stop := b.start, speaker := a.label } ::
          mergeAux b b rest)) ∧
    diarize_audio_merge [⟨0, 1, "t0", "A"⟩, ⟨1, 1.5, "t1", "A"⟩, ⟨1.5, 2, "t2", "B"⟩] =
      Except.ok [⟨0, 1.5, "A"⟩, ⟨1.5, 2, "B"⟩] := by
  constructor
  · intro a run b rest hrun hb
    simp only [diarize_audio_merge, Except.ok.injEq]
    exact mergeAux_run a b rest run a hrun hb
  · simp [diarize_audio_merge, mergeAux]

/-- Witness for C4 at a concrete input: a two-segment run of speaker A
followed by a segment of speaker B. -/
theorem merge_label_change_boundary_witness :
    diarize_audio_merge ((⟨0, 1, "t0", "A"⟩ : RawSegment) ::
        ([⟨1, 2, "t1", "A"⟩] ++ (⟨2, 3, "t2", "B"⟩ : RawSegment) :: [])) =
      Except.ok (SpeakerTurn.mk (⟨0, 1, "t0", "A"⟩ : RawSegment).start
          (⟨2, 3, "t2", "B"⟩ : RawSegment).start (⟨0, 1, "t0", "A"⟩ : RawSegment).label ::
        mergeAux ⟨2, 3, "t2", "B"⟩ ⟨2, 3, "t2", "B"⟩ []) :=
  merge_label_change_boundary.1 ⟨0, 1, "t0", "A"⟩ [⟨1, 2, "t1", "A"⟩] ⟨2, 3, "t2", "B"⟩ []
    (by simp) (by simp)

/-- Claim C5: for a non-empty raw-segment sequence the number of merged
turns is one plus the number of adjacent speaker-label changes. -/
theorem merge_turn_count (s : RawSegment) (rest : List RawSegment) (out : List SpeakerTurn)
    (h : diarize_audio_merge (s :: rest) = Except.ok out) :
    out.length = 1 + countLabelChanges (s :: rest) := by
  simp only [diarize_audio_merge, Except.ok.injEq] at h
  subst h
  exact mergeAux_length rest s s

/-- Witness for C5 at a concrete two-segment input with one change. -/
theorem merge_turn_count_witness :
    ([⟨0, 1, "A"⟩, ⟨1, 2, "B"⟩] : List SpeakerTurn).length =
      1 + countLabelChanges [⟨0, 1, "t0", "A"⟩, ⟨1, 2, "t1", "B"⟩] :=
  merge_turn_count ⟨0, 1, "t0", "A"⟩ [⟨1, 2, "t1", "B"⟩] [⟨0, 1, "A"⟩, ⟨1, 2, "B"⟩]
    (by simp [diarize_audio_merge, mergeAux])

/-- Claim C6: the final flush ends the last merged turn at the end of
the last raw segment processed, and a single raw segment yields exactly
one turn spanning its full interval. -/
theorem merge_final_flush :
    (∀ (s : RawSegment) (rest : List RawSegment) (out : List SpeakerTurn),
      diarize_audio_merge (s :: rest) = Except.ok out →
      ∃ turn, out.getLast? = some turn ∧ turn.stop = ((s :: rest).getLastD s).stop) ∧
    (∀ s : RawSegment,
      diarize_audio_merge [s] =
        Except.ok [{ start := s.start, stop := s.stop, speaker := s.label }]) := by
  constructor
  · intro s rest out h
    simp only [diarize_audio_merge, Except.ok.injEq] at h
    subst h
    rw [List.getLastD_cons]
    exact mergeAux_getLast rest s s
  · intro s
    simp [diarize_audio_merge, mergeAux]

/-- Witness for C6 at a concrete two-segment input. -/
theorem merge_final_flush_witness :
    ∃ turn, ([⟨0, 1, "A"⟩, ⟨1, 2, "B"⟩] : List SpeakerTurn).getLast? = some turn ∧
      turn.stop = (([⟨0, 1, "t0", "A"⟩, ⟨1, 2, "t1", "B"⟩] :
        List RawSegment).getLastD ⟨0, 1, "t0", "A"⟩).stop :=
  merge_final_flush.1 ⟨0, 1, "t0", "A"⟩ [⟨1, 2, "t1", "B"⟩] [⟨0, 1, "A"⟩, ⟨1, 2, "B"⟩]
    (by simp [diarize_audio_merge, mergeAux])

/-- Claim C10: for two or more raw segments with at least one label
change, consecutive merged turns are exactly contiguous (each turn ends
where the next starts) and adjacent turns never share a speaker. -/
theorem merge_turns_contiguous (segs : List RawSegment) (out : List SpeakerTurn)
    (hlen : 2 ≤ segs.length) (hch : 1 ≤ countLabelChanges segs)
    (h : diarize_audio_merge segs = Except.ok out) :
    List.Chain' (fun a b : SpeakerTurn => a.stop = b.start ∧ a.speaker ≠ b.speaker) out := by
  cases segs with
  | nil => simp at hlen
  | cons s rest =>
    simp only [diarize_audio_merge, Except.ok.injEq] at h
    subst h
    exact mergeAux_chain rest s s

/-- Witness for C10 at a concrete two-segment, one-change input. -/
theorem merge_turns_contiguous_witness :
    List.Chain' (fun a b : SpeakerTurn => a.stop = b.start ∧ a.speaker ≠ b.speaker)
      [⟨0, 1, "A"⟩, ⟨1, 2, "B"⟩] :=
  merge_turns_contiguous [⟨0, 1, "t0", "A"⟩, ⟨1, 2, "t1", "B"⟩] [⟨0, 1, "A"⟩, ⟨1, 2, "B"⟩]
    (by simp) (by simp [countLabelChanges]) (by simp [diarize_audio_merge, mergeAux])

/-- Claim C3 (amended): alignment fails with `EmptyTranscriptError`
when the chunk sequence is empty and the turn sequence is non-empty;
when the turn sequence is empty the loop never runs and alignment
returns the empty output without error, for every mode. -/
theorem align_empty_inputs :
    (∀ (g : Bool) (turns : List SpeakerTurn), turns ≠ [] →
      post_process_segments_and_transcripts turns [] g =
        Except.error AlignError.EmptyTranscriptError) ∧
    (∀ (g : Bool) (chunks : List TranscriptChunk),
      post_process_segments_and_transcripts [] chunks g = Except.ok []) := by
  constructor
  · intro g turns hne
    obtain ⟨seg, rest, rfl⟩ := List.exists_cons_of_ne_nil hne
    rfl
  · intro g chunks
    rfl

/-- Counterexample to C3 as stated: with empty turns and a non-empty
transcript, alignment does not fail at all — it returns the empty
output. -/
theorem align_empty_turns_no_error :
    post_process_segments_and_transcripts [] [⟨"a", 0, some 1⟩] false = Except.ok [] := rfl

/-- Witness for the amended C3 at a concrete input. -/
theorem align_empty_inputs_witness :
    post_process_segments_and_transcripts [⟨0, 1, "A"⟩] [] false =
      Except.error AlignError.EmptyTranscriptError :=
  align_empty_inputs.1 false [⟨0, 1, "A"⟩] (by simp)

/-- Claim C1: alignment walks the turns in order; for each turn it
attributes exactly the chunks from the front of the remaining working
set up to and including the index whose effective end (end, or the
float-max sentinel on a null end) is closest in absolute difference to
the turn's end, the lowest index winning ties; in particular for turns
(0,1.5,A),(1.5,3,B) and chunk ends 1.0, 1.6, 3.0 the per-chunk output
attributes the first two chunks to A and the third to B. -/
theorem align_per_chunk_closest_cut :
    (∀ (seg : SpeakerTurn) (rest : List SpeakerTurn) (t : List TranscriptChunk), t ≠ [] →
      ∃ k, isClosestIdx (t.map effectiveEnd) seg.stop k ∧
        post_process_segments_and_transcripts (seg :: rest) t false =
          (if t.drop (k + 1) = [] then
            Except.ok (attributed seg.speaker (t.take (k + 1)))
          else
            Except.map (fun out => attributed seg.speaker (t.take (k + 1)) ++ out)
              (post_process_segments_and_transcripts rest (t.drop (k + 1)) false))) ∧
    post_process_segments_and_transcripts
        [⟨0, 1.5, "A"⟩, ⟨1.5, 3, "B"⟩]
        [⟨"hi", 0, some 1⟩, ⟨" there", 1, some 1.6⟩, ⟨" bob", 1.6, some 3⟩] false =
      Except.ok [⟨"A", "hi", 0, some 1⟩, ⟨"A", " there", 1, some 1.6⟩,
        ⟨"B", " bob", 1.6, some 3⟩] := by
  constructor
  · intro seg rest t ht
    refine ⟨argminAbsList (t.map effectiveEnd) seg.stop, ?_, ?_⟩
    · exact argminAbsList_isClosestIdx (t.map effectiveEnd) seg.stop
        (by simpa [List.map_eq_nil_iff] using ht)
    · rw [post_process_cons false seg rest t ht]
      rfl
  · norm_num [post_process_segments_and_transcripts, alignLoop, alignEmitted, attributed,
      groupedPred, argminAbsList, argminList, effectiveEnd, defaultChunk,
      abs_of_nonneg, abs_of_nonpos]

/-- Witness for C1 at a concrete one-turn, one-chunk input. -/
theorem align_per_chunk_closest_cut_witness :
    ∃ k, isClosestIdx (([⟨"x", 0, some 1⟩] : List TranscriptChunk).map effectiveEnd)
        (⟨0, 1, "A"⟩ : SpeakerTurn).stop k ∧
      post_process_segments_and_transcripts [⟨0, 1, "A"⟩] [⟨"x", 0, some 1⟩] false =
        (if ([(⟨"x", 0, some 1⟩ : TranscriptChunk)].drop (k + 1)) = [] then
          Except.ok (attributed (⟨0, 1, "A"⟩ : SpeakerTurn).speaker
            ([(⟨"x", 0, some 1⟩ : TranscriptChunk)].take (k + 1)))
        else
          Except.map (fun out => attributed (⟨0, 1, "A"⟩ : SpeakerTurn).speaker
              ([(⟨"x", 0, some 1⟩ : TranscriptChunk)].take (k + 1)) ++ out)
            (post_process_segments_and_transcripts []
              ([(⟨"x", 0, some 1⟩ : TranscriptChunk)].drop (k + 1)) false)) :=
  align_per_chunk_closest_cut.1 ⟨0, 1, "A"⟩ [] [⟨"x", 0, some 1⟩] (by simp)

/-- Claim C2 (amended): in grouped mode each emitted segment's
timestamp start is the start of the first chunk of the working set at
the moment the segment is emitted (i.e. the first chunk attributed to
that turn), because the working transcript is cropped after every turn;
only the first emitted segment carries the original chunk 0's start. -/
theorem align_grouped_start_current_head :
    (∀ (seg : SpeakerTurn) (rest : List SpeakerTurn) (t : List TranscriptChunk), t ≠ [] →
      ∃ k, isClosestIdx (t.map effectiveEnd) seg.stop k ∧
        post_process_segments_and_transcripts (seg :: rest) t true =
          (if t.drop (k + 1) = [] then Except.ok [groupedPred seg t k]
          else
            Except.map (fun out => groupedPred seg t k :: out)
              (post_process_segments_and_transcripts rest (t.drop (k + 1)) true)) ∧
        (groupedPred seg t k).tstart = (t.headD defaultChunk).tstart) ∧
    post_process_segments_and_transcripts [⟨0, 1, "A"⟩, ⟨1, 2, "B"⟩]
        [⟨"a", 0, some 1⟩, ⟨"b", 1, some 2⟩] true =
      Except.ok [⟨"A", "a", 0, some 1⟩, ⟨"B", "b", 1, some 2⟩] := by
  constructor
  · intro seg rest t ht
    refine ⟨argminAbsList (t.map effectiveEnd) seg.stop, ?_, ?_, rfl⟩
    · exact argminAbsList_isClosestIdx (t.map effectiveEnd) seg.stop
        (by simpa [List.map_eq_nil_iff] using ht)
    · rw [post_process_cons true seg rest t ht]
      rfl
  · norm_num [post_process_segments_and_transcripts, alignLoop, alignEmitted, attributed,
      groupedPred, argminAbsList, argminList, effectiveEnd, defaultChunk, String.join,
      abs_of_nonneg, abs_of_nonpos]

/-- Counterexample to C2 as stated: on the two-turn input below the
second emitted segment's timestamp start is 1 (the start of the first
chunk attributed to turn B), not the original chunk 0's start 0. -/
theorem align_grouped_start_counterexample :
    post_process_segments_and_transcripts [⟨0, 1, "A"⟩, ⟨1, 2, "B"⟩]
        [⟨"a", 0, some 1⟩, ⟨"b", 1, some 2⟩] true =
      Except.ok [⟨"A", "a", 0, some 1⟩, ⟨"B", "b", 1, some 2⟩] ∧
    (⟨"B", "b", 1, some 2⟩ : AlignedPred).tstart ≠
      (⟨"a", 0, some 1⟩ : TranscriptChunk).tstart := by
  constructor
  · norm_num [post_process_segments_and_transcripts, alignLoop, alignEmitted, attributed,
      groupedPred, argminAbsList, argminList, effectiveEnd, defaultChunk, String.join,
      abs_of_nonneg, abs_of_nonpos]
  · norm_num [AlignedPred.tstart, TranscriptChunk.tstart]

/-- Witness for the amended C2 at a concrete one-turn, one-chunk
input. -/
theorem align_grouped_start_current_head_witness :
    ∃ k, isClosestIdx (([⟨"x", 0, some 1⟩] : List TranscriptChunk).map effectiveEnd)
        (⟨0, 1, "A"⟩ : SpeakerTurn).stop k ∧
      post_process_segments_and_transcripts [⟨0, 1, "A"⟩] [⟨"x", 0, some 1⟩] true =
        (if ([(⟨"x", 0, some 1⟩ : TranscriptChunk)].drop (k + 1)) = [] then
          Except.ok [groupedPred ⟨0, 1, "A"⟩ [⟨"x", 0, some 1⟩] k]
        else
          Except.map (fun out => groupedPred ⟨0, 1, "A"⟩ [⟨"x", 0, some 1⟩] k :: out)
            (post_process_segments_and_transcripts []
              ([(⟨"x", 0, some 1⟩ : TranscriptChunk)].drop (k + 1)) true)) ∧
      (groupedPred ⟨0, 1, "A"⟩ [⟨"x", 0, some 1⟩] k).tstart =
        (([⟨"x", 0, some 1⟩] : List TranscriptChunk).headD defaultChunk).tstart :=
  align_grouped_start_current_head.1 ⟨0, 1, "A"⟩ [] [⟨"x", 0, some 1⟩] (by simp)

/-- Claim C8: in per-chunk mode the output is exactly an initial
prefix of the input chunks, one entry per consumed chunk in order — the
working set only shrinks and no chunk is ever attributed twice. -/
theorem align_monotonic_consumption : ∀ (turns : List SpeakerTurn)
    (chunks : List TranscriptChunk) (out : List AlignedPred),
    post_process_segments_and_transcripts turns chunks false = Except.ok out →
    out.map predChunk = chunks.take out.length
  | [], chunks, out, h => by
    simp only [post_process_segments_and_transcripts, alignLoop, Except.ok.injEq] at h
    subst h
    simp
  | seg :: rest, [], out, h => by
    simp only [post_process_segments_and_transcripts, List.map_nil, alignLoop] at h
    simp at h
  | seg :: rest, c :: cs, out, h => by
    rw [post_process_cons false seg rest (c :: cs) (by simp)] at h
    by_cases hd : (c :: cs).drop (argminAbsList ((c :: cs).map effectiveEnd) seg.stop + 1) = []
    · rw [if_pos hd] at h
      simp only [Except.ok.injEq] at h
      subst h
      have hge : (c :: cs).length ≤ argminAbsList ((c :: cs).map effectiveEnd) seg.stop + 1 := by
        have hlen := congrArg List.length hd
        simp only [List.length_drop, List.length_nil] at hlen
        omega
      have hlen2 : (attributed seg.speaker
          ((c :: cs).take (argminAbsList ((c :: cs).map effectiveEnd) seg.stop + 1))).length =
          (c :: cs).length := by
        simp only [attributed, List.length_map, List.length_take]
        exact min_eq_right hge
      rw [alignEmitted_false, attributed_map_predChunk, hlen2, List.take_length,
        List.take_of_length_le hge]
    · rw [if_neg hd] at h
      cases hrec : post_process_segments_and_transcripts rest
          ((c :: cs).drop (argminAbsList ((c :: cs).map effectiveEnd) seg.stop + 1)) false with
      | error err =>
        rw [hrec] at h
        simp [Except.map] at h
      | ok out2 =>
        rw [hrec] at h
        simp only [Except.map, Except.ok.injEq] at h
        subst h
        have ih := align_monotonic_consumption rest
          ((c :: cs).drop (argminAbsList ((c :: cs).map effectiveEnd) seg.stop + 1)) out2 hrec
        have hle : argminAbsList ((c :: cs).map effectiveEnd) seg.stop + 1 ≤
            (c :: cs).length := by
          have hpos := List.length_pos.mpr hd
          rw [List.length_drop] at hpos
          omega
        have hlen2 : (attributed seg.speaker
            ((c :: cs).take (argminAbsList ((c :: cs).map effectiveEnd) seg.stop + 1))).length =
            argminAbsList ((c :: cs).map effectiveEnd) seg.stop + 1 := by
          simp only [attributed, List.length_map, List.length_take]
          exact min_eq_left hle
        rw [alignEmitted_false, List.map_append, attributed_map_predChunk, ih,
          List.length_append, hlen2]
        exact (List.take_add (c :: cs)
          (argminAbsList ((c :: cs).map effectiveEnd) seg.stop + 1) out2.length).symm

/-- Witness for C8 at a concrete one-turn, one-chunk input. -/
theorem align_monotonic_consumption_witness :
    ([⟨"A", "x", 0, some 1⟩] : List AlignedPred).map predChunk =
      ([⟨"x", 0, some 1⟩] : List TranscriptChunk).take
        ([⟨"A", "x", 0, some 1⟩] : List AlignedPred).length :=
  align_monotonic_consumption [⟨0, 1, "A"⟩] [⟨"x", 0, some 1⟩] [⟨"A", "x", 0, some 1⟩]
    (by norm_num [post_process_segments_and_transcripts, alignLoop, alignEmitted, attributed,
      argminAbsList, argminList, effectiveEnd])

/-- Claim C7: if the working chunk set becomes empty while processing
the turns, alignment stops at that point without error, any further
turns produce no output (appending them leaves the result unchanged),
and the per-chunk output length equals the number of input chunks
exactly. -/
theorem align_early_exit : ∀ (turns extra : List SpeakerTurn)
    (chunks : List TranscriptChunk), chunks ≠ [] →
    exhaustsTranscript turns chunks = true →
    ∃ out,
      post_process_segments_and_transcripts (turns ++ extra) chunks false = Except.ok out ∧
      post_process_segments_and_transcripts turns chunks false = Except.ok out ∧
      out.length = chunks.length
  | [], _, chunks, _, hex => by simp [exhaustsTranscript] at hex
  | seg :: rest, extra, chunks, hne, hex => by
    obtain ⟨c, cs, rfl⟩ := List.exists_cons_of_ne_nil hne
    simp only [exhaustsTranscript] at hex
    by_cases hd : (c :: cs).drop (argminAbsList ((c :: cs).map effectiveEnd) seg.stop + 1) = []
    · refine ⟨alignEmitted false seg (c :: cs)
          (argminAbsList ((c :: cs).map effectiveEnd) seg.stop), ?_, ?_, ?_⟩
      · rw [List.cons_append, post_process_cons false seg (rest ++ extra) (c :: cs) (by simp),
          if_pos hd]
      · rw [post_process_cons false seg rest (c :: cs) (by simp), if_pos hd]
      · have hge : (c :: cs).length ≤
            argminAbsList ((c :: cs).map effectiveEnd) seg.stop + 1 := by
          have hlen := congrArg List.length hd
          simp only [List.length_drop, List.length_nil] at hlen
          omega
        rw [alignEmitted_false]
        simp only [attributed, List.length_map, List.length_take]
        exact min_eq_right hge
    · have hexr : exhaustsTranscript rest
          ((c :: cs).drop (argminAbsList ((c :: cs).map effectiveEnd) seg.stop + 1)) = true := by
        rw [if_neg ?_] at hex
        · exact hex
        · rw [List.isEmpty_iff]
          exact hd
      obtain ⟨out2, h1, h2, h3⟩ := align_early_exit rest extra
        ((c :: cs).drop (argminAbsList ((c :: cs).map effectiveEnd) seg.stop + 1)) hd hexr
      refine ⟨alignEmitted false seg (c :: cs)
          (argminAbsList ((c :: cs).map effectiveEnd) seg.stop) ++ out2, ?_, ?_, ?_⟩
      · rw [List.cons_append, post_process_cons false seg (rest ++ extra) (c :: cs) (by simp),
          if_neg hd, h1]
        rfl
      · rw [post_process_cons false seg rest (c :: cs) (by simp), if_neg hd, h2]
        rfl
      · have hle : argminAbsList ((c :: cs).map effectiveEnd) seg.stop + 1 ≤
            (c :: cs).length := by
          have hpos := List.length_pos.mpr hd
          rw [List.length_drop] at hpos
          omega
        rw [List.length_append, h3, List.length_drop, alignEmitted_false]
        simp only [attributed, List.length_map, List.length_take]
        rw [min_eq_left hle]
        omega

/-- Witness for C7: one turn exhausts the single chunk, and an appended
second turn is silently skipped. -/
theorem align_early_exit_witness :
    ∃ out,
      post_process_segments_and_transcripts (([⟨0, 1, "A"⟩] : List SpeakerTurn) ++
        [⟨1, 2, "B"⟩]) [⟨"x", 0, some 1⟩] false = Except.ok out ∧
      post_process_segments_and_transcripts [⟨0, 1, "A"⟩] [⟨"x", 0, some 1⟩] false =
        Except.ok out ∧
      out.length = ([⟨"x", 0, some 1⟩] : List TranscriptChunk).length :=
  align_early_exit [⟨0, 1, "A"⟩] [⟨1, 2, "B"⟩] [⟨"x", 0, some 1⟩] (by simp)
    (by simp [exhaustsTranscript, argminAbsList, argminList, effectiveEnd])

end DiarizationUtils
